import Mathlib

/-!
Shallow embedding of `src/ethcloud.rs` (an Ethernet-over-UDP overlay node):
the peer list, the MAC table and the switching-engine handlers, with theorems
checking the specification's claims about them.

Modelling conventions:
* `SteadyTime` and `Duration` are both `Int`, measured in seconds on the
  monotone clock.
* `SocketAddr`, `Mac` and `Token` are values compared only by equality and
  are modelled as `Nat`.
* Rust `HashMap`s become association lists with unique keys; `insert` puts
  the new binding in front and drops any old binding of the same key.
* I/O is replaced by oracles: `sendOk addr` says whether the UDP send to
  `addr` succeeds (the truncated-send and the IO-error branches of
  `send_msg` both produce `SocketError`, so one Bool suffices), and `tapOk`
  says whether the tap-device write succeeds.  Handlers return the list of
  datagrams they attempted to send, in order, alongside their result and
  the updated state.
* Each handler call reads the clock as one value `now`; the 64 KiB scratch
  buffers carry no observable state and are omitted.
-/

namespace Ethcloud

/-- `Mac(pub [u8; 6])`: a 6-byte identifier compared and hashed by value;
modelled as a `Nat` since every use in `ethcloud.rs` is value equality. -/
abbrev Mac := Nat

/-- `SocketAddr`: a network endpoint compared by value. -/
abbrev SocketAddr := Nat

/-- `pub type Token = u64`: the shared admission token, compared by value. -/
abbrev Token := Nat

/-- `enum Error` from `ethcloud.rs`. -/
inductive Error where
  | ParseError : String → Error
  | WrongToken : Token → Error
  | SocketError : String → Error
  | TapdevError : String → Error
  deriving DecidableEq

/-- Modelled from the spec: `ethernet::Frame` (src/ethernet.rs is not among
the sources).  The spec's parser yields `src : Mac`, `dst : Mac`,
`vlan : VlanId` (0 if untagged) and the original bytes; `ethcloud.rs` reads
exactly `src`, `dst` and `vlan`. -/
structure Frame where
  src : Mac
  dst : Mac
  vlan : Nat
  payload : List Nat
  deriving DecidableEq

/-- Modelled from the spec: `udpmessage::Message` (src/udpmessage.rs is not
among the sources).  The four message kinds of the wire codec, exactly as
matched in `EthCloud::handle_net_message`. -/
inductive Message where
  | Frame : Frame → Message
  | Peers : List SocketAddr → Message
  | GetPeers : Message
  | Close : Message
  deriving DecidableEq

/-- `struct PeerList`: the known peers with their expiry deadlines.  The
source field `timeout: Duration` is rendered `timeout_dur` because the
eviction method `PeerList::timeout` keeps the source name. -/
structure PeerList where
  timeout_dur : Int
  peers : List (SocketAddr × Int)
  deriving DecidableEq

/-- `PeerList::new`. -/
def PeerList.new (timeout : Int) : PeerList :=
  { timeout_dur := timeout, peers := [] }

/-- `PeerList::timeout`: drop every entry whose deadline is strictly before
`now`. -/
def PeerList.timeout (pl : PeerList) (now : Int) : PeerList :=
  { pl with peers := pl.peers.filter (fun e => ! decide (e.2 < now)) }

/-- `PeerList::contains`. -/
def PeerList.contains (pl : PeerList) (addr : SocketAddr) : Bool :=
  pl.peers.any (fun e => decide (e.1 = addr))

/-- `PeerList::add`: insert or refresh with deadline `now + timeout`
(`HashMap::insert` overwrites any previous binding). -/
def PeerList.add (pl : PeerList) (addr : SocketAddr) (now : Int) : PeerList :=
  { pl with peers :=
      (addr, now + pl.timeout_dur) :: pl.peers.filter (fun e => ! decide (e.1 = addr)) }

/-- `PeerList::as_vec`: the current keys. -/
def PeerList.as_vec (pl : PeerList) : List SocketAddr :=
  pl.peers.map (fun e => e.1)

/-- `PeerList::remove`. -/
def PeerList.remove (pl : PeerList) (addr : SocketAddr) : PeerList :=
  { pl with peers := pl.peers.filter (fun e => ! decide (e.1 = addr)) }

/-- `struct MacTableKey`. -/
structure MacTableKey where
  mac : Mac
  vlan : Nat
  deriving DecidableEq

/-- `struct MacTableValue`. -/
structure MacTableValue where
  address : SocketAddr
  timeout : Int
  deriving DecidableEq

/-- `struct MacTable`; as in `PeerList`, the duration field is rendered
`timeout_dur`. -/
structure MacTable where
  timeout_dur : Int
  table : List (MacTableKey × MacTableValue)
  deriving DecidableEq

/-- `MacTable::new`. -/
def MacTable.new (timeout : Int) : MacTable :=
  { timeout_dur := timeout, table := [] }

/-- `MacTable::timeout`: drop every entry whose deadline is strictly before
`now`. -/
def MacTable.timeout (tbl : MacTable) (now : Int) : MacTable :=
  { tbl with table := tbl.table.filter (fun e => ! decide (e.2.timeout < now)) }

/-- `MacTable::learn`: insert or overwrite with deadline `now + timeout`. -/
def MacTable.learn (tbl : MacTable) (mac : Mac) (vlan : Nat) (addr : SocketAddr)
    (now : Int) : MacTable :=
  { tbl with table :=
      (MacTableKey.mk mac vlan, MacTableValue.mk addr (now + tbl.timeout_dur)) ::
        tbl.table.filter (fun e => ! decide (e.1 = MacTableKey.mk mac vlan)) }

/-- `MacTable::lookup`: the currently mapped address, regardless of
deadline. -/
def MacTable.lookup (tbl : MacTable) (mac : Mac) (vlan : Nat) : Option SocketAddr :=
  match tbl.table.find? (fun e => decide (e.1 = MacTableKey.mk mac vlan)) with
  | some e => some e.2.address
  | none => none

/-- `struct EthCloud`, minus the I/O handles and the scratch buffer. -/
structure EthCloud where
  peers : PeerList
  mactable : MacTable
  token : Token
  next_peerlist : Int
  update_freq : Int
  last_housekeep : Int
  deriving DecidableEq

/-- The pure part of `EthCloud::new`: socket and device setup are I/O and
are dropped; both deadlines start at the current time. -/
def EthCloud.init (token : Token) (mac_timeout peer_timeout now : Int) : EthCloud :=
  { peers := PeerList.new peer_timeout
    mactable := MacTable.new mac_timeout
    token := token
    next_peerlist := now
    update_freq := peer_timeout / 2
    last_housekeep := now }

/-- `EthCloud::send_msg`: encode and send one datagram.  The only state it
touches is the scratch buffer (omitted), so it returns the result and the
attempted datagram; `sendOk` decides between `Ok` and the two `SocketError`
branches (short send / IO error), collapsed to the IO-error message. -/
def send_msg (sendOk : SocketAddr → Bool) (addr : SocketAddr) (msg : Message) :
    Except Error Unit × List (SocketAddr × Message) :=
  if sendOk addr then (Except.ok (), [(addr, msg)])
  else (Except.error (Error.SocketError "IOError when sending"), [(addr, msg)])

/-- `EthCloud::connect`: send `GetPeers` to the address. -/
def connect (sendOk : SocketAddr → Bool) (addr : SocketAddr) :
    Except Error Unit × List (SocketAddr × Message) :=
  send_msg sendOk addr Message.GetPeers

/-- A `for addr in peers { try!(send_msg(addr, msg)) }` loop: send `msg` to
each address in order, stopping at (and returning) the first error. -/
def sendAll (sendOk : SocketAddr → Bool) (msg : Message) :
    List SocketAddr → Except Error Unit × List (SocketAddr × Message)
  | [] => (Except.ok (), [])
  | addr :: rest =>
    match send_msg sendOk addr msg with
    | (Except.ok _, att) =>
      let r := sendAll sendOk msg rest
      (r.1, att ++ r.2)
    | (Except.error e, att) => (Except.error e, att)

/-- The loop of the `Peers` branch of `handle_net_message`: for each listed
address not already contained, `try!(connect(p))`; the loop never mutates
the peer list, so containment is checked against the list as it was after
the sender was added. -/
def connectLoop (sendOk : SocketAddr → Bool) (pl : PeerList) :
    List SocketAddr → Except Error Unit × List (SocketAddr × Message)
  | [] => (Except.ok (), [])
  | p :: rest =>
    if pl.contains p then connectLoop sendOk pl rest
    else
      match connect sendOk p with
      | (Except.ok _, att) =>
        let r := connectLoop sendOk pl rest
        (r.1, att ++ r.2)
      | (Except.error e, att) => (Except.error e, att)

/-- `EthCloud::housekeep`: expire peers and MAC entries; if the gossip
deadline has elapsed, send the `Peers` snapshot to every known peer
(`try!`, so a failed send aborts the loop and skips the deadline update). -/
def EthCloud.housekeep (c : EthCloud) (sendOk : SocketAddr → Bool) (now : Int) :
    Except Error Unit × EthCloud × List (SocketAddr × Message) :=
  let peers' := c.peers.timeout now
  let mactable' := c.mactable.timeout now
  if c.next_peerlist ≤ now then
    let pv := peers'.as_vec
    let r := sendAll sendOk (Message.Peers pv) pv
    match r.1 with
    | Except.ok _ =>
      (Except.ok (), { c with peers := peers', mactable := mactable',
                              next_peerlist := now + c.update_freq }, r.2)
    | Except.error e =>
      (Except.error e, { c with peers := peers', mactable := mactable' }, r.2)
  else
    (Except.ok (), { c with peers := peers', mactable := mactable' }, [])

/-- `EthCloud::handle_ethernet_frame`: unicast on a MAC-table hit, flood to
the peer snapshot on a miss (`try!` on every send). -/
def EthCloud.handle_ethernet_frame (c : EthCloud) (sendOk : SocketAddr → Bool)
    (frame : Frame) : Except Error Unit × EthCloud × List (SocketAddr × Message) :=
  match c.mactable.lookup frame.dst frame.vlan with
  | some addr =>
    let r := send_msg sendOk addr (Message.Frame frame)
    (r.1, c, r.2)
  | none =>
    let r := sendAll sendOk (Message.Frame frame) c.peers.as_vec
    (r.1, c, r.2)

/-- `EthCloud::handle_net_message`: token check, then dispatch on the
message kind; `tapOk` stands for the result of `tapdev.write` in the
`Frame` branch. -/
def EthCloud.handle_net_message (c : EthCloud) (sendOk : SocketAddr → Bool)
    (tapOk : Bool) (now : Int) (peer : SocketAddr) (token : Token) (msg : Message) :
    Except Error Unit × EthCloud × List (SocketAddr × Message) :=
  if token ≠ c.token then
    (Except.error (Error.WrongToken token), c, [])
  else
    match msg with
    | Message.Frame frame =>
      if tapOk then
        (Except.ok (),
         { c with peers := c.peers.add peer now,
                  mactable := c.mactable.learn frame.src frame.vlan peer now }, [])
      else
        (Except.error (Error.TapdevError "Failed to write to tap device"), c, [])
    | Message.Peers ps =>
      let peers' := c.peers.add peer now
      let r := connectLoop sendOk peers' ps
      (r.1, { c with peers := peers' }, r.2)
    | Message.GetPeers =>
      let peers' := c.peers.add peer now
      let r := send_msg sendOk peer (Message.Peers peers'.as_vec)
      (r.1, { c with peers := peers' }, r.2)
    | Message.Close =>
      (Except.ok (), { c with peers := c.peers.remove peer }, [])

/-- The housekeeping guard of `EthCloud::run`:
`self.last_housekeep < SteadyTime::now() + Duration::seconds(1)`. -/
def housekeepCheck (last_housekeep now : Int) : Bool :=
  decide (last_housekeep < now + 1)

/-- The guard the spec states as the intent: housekeeping runs on every
iteration whose clock is at least one second past the last housekeeping
time, `now - last_housekeep ≥ 1s`. -/
def housekeepCheckSpec (last_housekeep now : Int) : Bool :=
  decide (1 ≤ now - last_housekeep)

/-! ### Operation traces over the two soft-state tables

The persistence claims quantify over every sequence of table operations
between an insertion and a later observation, so we reify the operations of
each table (tagged with the `SteadyTime` at which the source would read the
clock inside them) and fold them over a state. -/

/-- An operation on a `PeerList`. -/
inductive PeerOp where
  | add : SocketAddr → Int → PeerOp
  | remove : SocketAddr → PeerOp
  | timeout : Int → PeerOp
  deriving DecidableEq

/-- Run one `PeerOp`. -/
def PeerList.applyOp (pl : PeerList) : PeerOp → PeerList
  | PeerOp.add a now => pl.add a now
  | PeerOp.remove a => pl.remove a
  | PeerOp.timeout now => pl.timeout now

/-- Run a sequence of `PeerOp`s, oldest first. -/
def PeerList.applyOps (pl : PeerList) (ops : List PeerOp) : PeerList :=
  ops.foldl PeerList.applyOp pl

/-- The side conditions of claim C3 on the operations that follow
`add a t`: no removal of `a`, re-adds of `a` no earlier than `t` (the
clock is monotone), and every eviction sweep strictly before `t + T`. -/
def peerOpSafe (a : SocketAddr) (t T : Int) : PeerOp → Prop
  | PeerOp.add b now => b = a → t ≤ now
  | PeerOp.remove b => b ≠ a
  | PeerOp.timeout now => now < t + T

/-- Invariant carried through a trace: some entry for `a` is present, and
every entry for `a` has deadline at least `d0`. -/
def PeerInv (a : SocketAddr) (d0 : Int) (pl : PeerList) : Prop :=
  (∃ e ∈ pl.peers, e.1 = a) ∧ ∀ e ∈ pl.peers, e.1 = a → d0 ≤ e.2

theorem peerInv_applyOp (a : SocketAddr) (t T : Int) (pl : PeerList) (op : PeerOp)
    (hT : pl.timeout_dur = T) (hop : peerOpSafe a t T op)
    (h : PeerInv a (t + T) pl) :
    (pl.applyOp op).timeout_dur = T ∧ PeerInv a (t + T) (pl.applyOp op) := by
  obtain ⟨⟨e0, he0, he0a⟩, hall⟩ := h
  cases op with
  | add b now =>
    by_cases hba : b = a
    · subst hba
      refine ⟨hT, ⟨(b, now + pl.timeout_dur), by simp [PeerList.applyOp, PeerList.add], rfl⟩, ?_⟩
      intro e he hea
      simp only [PeerList.applyOp, PeerList.add, List.mem_cons, List.mem_filter] at he
      rcases he with rfl | ⟨-, hne⟩
      · have hnow := hop rfl
        simp only [hT]
        omega
      · simp [hea] at hne
    · refine ⟨hT, ⟨e0, ?_, he0a⟩, ?_⟩
      · simp only [PeerList.applyOp, PeerList.add, List.mem_cons, List.mem_filter]
        right
        refine ⟨he0, ?_⟩
        simp only [he0a, Bool.not_eq_true', decide_eq_false_iff_not]
        exact fun h => hba h.symm
      · intro e he hea
        simp only [PeerList.applyOp, PeerList.add, List.mem_cons, List.mem_filter] at he
        rcases he with rfl | ⟨he, -⟩
        · exact absurd hea hba
        · exact hall e he hea
  | remove b =>
    have hba : b ≠ a := hop
    refine ⟨hT, ⟨e0, ?_, he0a⟩, ?_⟩
    · simp only [PeerList.applyOp, PeerList.remove, List.mem_filter]
      refine ⟨he0, ?_⟩
      simp only [he0a, Bool.not_eq_true', decide_eq_false_iff_not]
      exact fun h => hba h.symm
    · intro e he hea
      simp only [PeerList.applyOp, PeerList.remove, List.mem_filter] at he
      exact hall e he.1 hea
  | timeout now =>
    have hnow : now < t + T := hop
    refine ⟨hT, ⟨e0, ?_, he0a⟩, ?_⟩
    · simp only [PeerList.applyOp, PeerList.timeout, List.mem_filter]
      refine ⟨he0, ?_⟩
      have := hall e0 he0 he0a
      simp only [Bool.not_eq_true', decide_eq_false_iff_not, not_lt]
      omega
    · intro e he hea
      simp only [PeerList.applyOp, PeerList.timeout, List.mem_filter] at he
      exact hall e he.1 hea

theorem peerInv_applyOps (a : SocketAddr) (t T : Int) :
    ∀ (ops : List PeerOp) (pl : PeerList), pl.timeout_dur = T →
      PeerInv a (t + T) pl → (∀ op ∈ ops, peerOpSafe a t T op) →
      PeerInv a (t + T) (pl.applyOps ops)
  | [], _, _, h, _ => h
  | op :: ops, pl, hT, h, hops => by
    have step := peerInv_applyOp a t T pl op hT (hops op (List.mem_cons_self op ops)) h
    have tail := peerInv_applyOps a t T ops (pl.applyOp op) step.1 step.2
      (fun o ho => hops o (List.mem_cons_of_mem op ho))
    simpa [PeerList.applyOps] using tail

/-- An operation on a `MacTable`. -/
inductive MacOp where
  | learn : Mac → Nat → SocketAddr → Int → MacOp
  | timeout : Int → MacOp
  deriving DecidableEq

/-- Run one `MacOp`. -/
def MacTable.applyOp (tbl : MacTable) : MacOp → MacTable
  | MacOp.learn m v a now => tbl.learn m v a now
  | MacOp.timeout now => tbl.timeout now

/-- Run a sequence of `MacOp`s, oldest first. -/
def MacTable.applyOps (tbl : MacTable) (ops : List MacOp) : MacTable :=
  ops.foldl MacTable.applyOp tbl

/-- The side conditions of claim C4 on the operations that follow
`learn m v a t`: no re-learn of the same `(mac, vlan)` key, and every
eviction sweep strictly before `t + T`. -/
def macOpSafe (m : Mac) (v : Nat) (t T : Int) : MacOp → Prop
  | MacOp.learn m' v' _ _ => ¬(m' = m ∧ v' = v)
  | MacOp.timeout now => now < t + T

/-- Invariant carried through a trace: some entry for the key is present,
and every entry for the key maps to `a` with deadline at least `d0`. -/
def MacInv (k : MacTableKey) (a : SocketAddr) (d0 : Int) (tbl : MacTable) : Prop :=
  (∃ e ∈ tbl.table, e.1 = k) ∧
    ∀ e ∈ tbl.table, e.1 = k → e.2.address = a ∧ d0 ≤ e.2.timeout

theorem macInv_applyOp (m : Mac) (v : Nat) (a : SocketAddr) (t T : Int)
    (tbl : MacTable) (op : MacOp) (hT : tbl.timeout_dur = T) (hop : macOpSafe m v t T op)
    (h : MacInv (MacTableKey.mk m v) a (t + T) tbl) :
    (tbl.applyOp op).timeout_dur = T ∧
      MacInv (MacTableKey.mk m v) a (t + T) (tbl.applyOp op) := by
  obtain ⟨⟨e0, he0, he0k⟩, hall⟩ := h
  cases op with
  | learn m' v' a' now =>
    have hk : MacTableKey.mk m' v' ≠ MacTableKey.mk m v := by
      intro hc
      exact hop ⟨congrArg MacTableKey.mac hc, congrArg MacTableKey.vlan hc⟩
    refine ⟨hT, ⟨e0, ?_, he0k⟩, ?_⟩
    · simp only [MacTable.applyOp, MacTable.learn, List.mem_cons, List.mem_filter]
      right
      refine ⟨he0, ?_⟩
      simp only [he0k, Bool.not_eq_true', decide_eq_false_iff_not]
      exact fun h => hk h.symm
    · intro e he hek
      simp only [MacTable.applyOp, MacTable.learn, List.mem_cons, List.mem_filter] at he
      rcases he with rfl | ⟨he, -⟩
      · exact absurd hek hk
      · exact hall e he hek
  | timeout now =>
    have hnow : now < t + T := hop
    refine ⟨hT, ⟨e0, ?_, he0k⟩, ?_⟩
    · simp only [MacTable.applyOp, MacTable.timeout, List.mem_filter]
      refine ⟨he0, ?_⟩
      have := hall e0 he0 he0k
      simp only [Bool.not_eq_true', decide_eq_false_iff_not, not_lt]
      omega
    · intro e he hek
      simp only [MacTable.applyOp, MacTable.timeout, List.mem_filter] at he
      exact hall e he.1 hek

theorem macInv_applyOps (m : Mac) (v : Nat) (a : SocketAddr) (t T : Int) :
    ∀ (ops : List MacOp) (tbl : MacTable), tbl.timeout_dur = T →
      MacInv (MacTableKey.mk m v) a (t + T) tbl → (∀ op ∈ ops, macOpSafe m v t T op) →
      MacInv (MacTableKey.mk m v) a (t + T) (tbl.applyOps ops)
  | [], _, _, h, _ => h
  | op :: ops, tbl, hT, h, hops => by
    have step := macInv_applyOp m v a t T tbl op hT (hops op (List.mem_cons_self op ops)) h
    have tail := macInv_applyOps m v a t T ops (tbl.applyOp op) step.1 step.2
      (fun o ho => hops o (List.mem_cons_of_mem op ho))
    simpa [MacTable.applyOps] using tail

/-- `lookup` returns the invariant's address: the first entry found for the
key is an entry for the key, and all of those map to `a`. -/
theorem lookup_of_macInv (tbl : MacTable) (m : Mac) (v : Nat) (a : SocketAddr)
    (d0 : Int) (h : MacInv (MacTableKey.mk m v) a d0 tbl) :
    tbl.lookup m v = some a := by
  obtain ⟨⟨e0, he0, he0k⟩, hall⟩ := h
  unfold MacTable.lookup
  have hsome : (tbl.table.find? (fun e => decide (e.1 = MacTableKey.mk m v))).isSome := by
    rw [List.find?_isSome]
    exact ⟨e0, he0, by simp [he0k]⟩
  obtain ⟨e', he'⟩ := Option.isSome_iff_exists.mp hsome
  rw [he']
  have hmem := List.mem_of_find?_eq_some he'
  have hp := List.find?_some he'
  simp only [decide_eq_true_eq] at hp
  exact congrArg some (hall e' hmem hp).1

/-! ### Helper lemmas about the send loops -/

/-- When every send succeeds, the broadcast loop sends `msg` to each address
in order and returns success. -/
theorem sendAll_all_ok (sendOk : SocketAddr → Bool) (msg : Message)
    (l : List SocketAddr) (hok : ∀ a ∈ l, sendOk a = true) :
    sendAll sendOk msg l = (Except.ok (), l.map (fun a => (a, msg))) := by
  induction l with
  | nil => rfl
  | cons a rest ih =>
    have ha : sendOk a = true := hok a (List.mem_cons_self a rest)
    have ihr := ih (fun x hx => hok x (List.mem_cons_of_mem a hx))
    simp [sendAll, send_msg, ha, ihr]

/-- The broadcast loop stops at the first failing address: everything before
it is sent, it is attempted, and everything after it is not attempted. -/
theorem sendAll_stops_at_failure (sendOk : SocketAddr → Bool) (msg : Message)
    (xs : List SocketAddr) (a : SocketAddr) (ys : List SocketAddr)
    (hxs : ∀ x ∈ xs, sendOk x = true) (ha : sendOk a = false) :
    sendAll sendOk msg (xs ++ a :: ys)
      = (Except.error (Error.SocketError "IOError when sending"),
         xs.map (fun x => (x, msg)) ++ [(a, msg)]) := by
  induction xs with
  | nil => simp [sendAll, send_msg, ha]
  | cons x rest ih =>
    have hx : sendOk x = true := hxs x (List.mem_cons_self x rest)
    have ihr := ih (fun y hy => hxs y (List.mem_cons_of_mem x hy))
    simp [sendAll, send_msg, hx, ihr]

/-- When every send succeeds, the connect loop sends `GetPeers` exactly to
the listed addresses not already contained, in order. -/
theorem connectLoop_all_ok (sendOk : SocketAddr → Bool) (pl : PeerList)
    (ps : List SocketAddr) (hok : ∀ a ∈ ps, sendOk a = true) :
    connectLoop sendOk pl ps
      = (Except.ok (),
         (ps.filter (fun p => ! pl.contains p)).map (fun p => (p, Message.GetPeers))) := by
  induction ps with
  | nil => rfl
  | cons p rest ih =>
    have ihr := ih (fun x hx => hok x (List.mem_cons_of_mem p hx))
    by_cases hc : pl.contains p = true
    · simp [connectLoop, hc, ihr]
    · have hp : sendOk p = true := hok p (List.mem_cons_self p rest)
      simp [connectLoop, hc, connect, send_msg, hp, ihr]

/-- Adding an address makes `contains` true for it. -/
theorem contains_add_self (pl : PeerList) (addr : SocketAddr) (now : Int) :
    (pl.add addr now).contains addr = true := by
  simp [PeerList.add, PeerList.contains]

/-! ### Concrete states used by witnesses and counterexamples -/

/-- A concrete engine state: two known peers `1` and `2` (deadlines far in
the future), one MAC entry mapping `(mac 10, vlan 0)` to peer `1`. -/
def cEx : EthCloud :=
  { peers := { timeout_dur := 600, peers := [(1, 1000), (2, 1000)] }
    mactable := { timeout_dur := 300,
                  table := [(MacTableKey.mk 10 0, MacTableValue.mk 1 900)] }
    token := 42
    next_peerlist := 0
    update_freq := 300
    last_housekeep := 0 }

/-- `cEx` with an empty peer list. -/
def cExEmpty : EthCloud :=
  { cEx with peers := { timeout_dur := 600, peers := [] } }

/-- A frame whose destination hits the MAC entry of `cEx`. -/
def fHit : Frame := { src := 5, dst := 10, vlan := 0, payload := [1, 2] }

/-- A frame whose destination misses the MAC table of `cEx`. -/
def fMiss : Frame := { src := 5, dst := 11, vlan := 0, payload := [] }

/-- Send oracle that fails exactly for address `1`. -/
def sendOkNot1 : SocketAddr → Bool := fun a => ! decide (a = 1)

/-- Send oracle that fails exactly for address `2`. -/
def sendOkNot2 : SocketAddr → Bool := fun a => ! decide (a = 2)

/-- State for the C7 counterexample: gossip due (`next_peerlist = 0`),
gossip interval `update_freq = 10`, peers `1` and `2` alive far beyond the
trace. -/
def c7 : EthCloud :=
  { peers := { timeout_dur := 600, peers := [(1, 1000), (2, 1000)] }
    mactable := { timeout_dur := 300, table := [] }
    token := 42
    next_peerlist := 0
    update_freq := 10
    last_housekeep := 0 }

/-! ### The claims -/

/-- C1: for every Ethernet frame read from the device, when the MAC table
maps `(dst, vlan)` to an address the handler sends exactly one `Frame`
datagram to that address; on a miss it sends `Frame` to every peer in the
current snapshot; with zero peers the miss case sends nothing and still
returns success. -/
theorem frame_forwarding_unicast_or_flood :
    (∀ (c : EthCloud) (sendOk : SocketAddr → Bool) (f : Frame) (addr : SocketAddr),
      (∀ a, sendOk a = true) →
      c.mactable.lookup f.dst f.vlan = some addr →
      c.handle_ethernet_frame sendOk f = (Except.ok (), c, [(addr, Message.Frame f)]))
  ∧ (∀ (c : EthCloud) (sendOk : SocketAddr → Bool) (f : Frame),
      (∀ a, sendOk a = true) →
      c.mactable.lookup f.dst f.vlan = none →
      c.handle_ethernet_frame sendOk f
        = (Except.ok (), c, c.peers.as_vec.map (fun a => (a, Message.Frame f))))
  ∧ (∀ (c : EthCloud) (sendOk : SocketAddr → Bool) (f : Frame),
      c.peers.peers = [] →
      c.mactable.lookup f.dst f.vlan = none →
      c.handle_ethernet_frame sendOk f = (Except.ok (), c, [])) := by
  refine ⟨?_, ?_, ?_⟩
  · intro c sendOk f addr hok hl
    simp [EthCloud.handle_ethernet_frame, hl, send_msg, hok addr]
  · intro c sendOk f hok hl
    simp [EthCloud.handle_ethernet_frame, hl,
      sendAll_all_ok sendOk (Message.Frame f) c.peers.as_vec (fun a _ => hok a)]
  · intro c sendOk f hp hl
    simp [EthCloud.handle_ethernet_frame, hl, PeerList.as_vec, hp, sendAll]

/-- Witness for C1 at concrete inputs: a hit unicasts to the mapped peer, a
miss floods to the two-peer snapshot, and a miss with zero peers sends
nothing and succeeds, even under an always-failing send oracle. -/
theorem frame_forwarding_unicast_or_flood_witness :
    cEx.handle_ethernet_frame (fun _ => true) fHit
      = (Except.ok (), cEx, [(1, Message.Frame fHit)])
  ∧ cEx.handle_ethernet_frame (fun _ => true) fMiss
      = (Except.ok (), cEx, [(1, Message.Frame fMiss), (2, Message.Frame fMiss)])
  ∧ cExEmpty.handle_ethernet_frame (fun _ => false) fMiss
      = (Except.ok (), cExEmpty, []) := by
  refine ⟨?_, ?_, ?_⟩
  · exact frame_forwarding_unicast_or_flood.1 cEx (fun _ => true) fHit 1
      (fun _ => rfl) (by decide)
  · have h := frame_forwarding_unicast_or_flood.2.1 cEx (fun _ => true) fMiss
      (fun _ => rfl) (by decide)
    rw [h]
    rfl
  · exact frame_forwarding_unicast_or_flood.2.2 cExEmpty (fun _ => false) fMiss
      (by decide) (by decide)

/-- C2: an inbound datagram whose token differs from the local token yields
`WrongToken(token)` and leaves the whole state unchanged — peer list and
MAC table included, so the sender is not added — and nothing is sent. -/
theorem wrong_token_no_mutation (c : EthCloud) (sendOk : SocketAddr → Bool)
    (tapOk : Bool) (now : Int) (peer : SocketAddr) (token : Token) (msg : Message)
    (h : token ≠ c.token) :
    c.handle_net_message sendOk tapOk now peer token msg
      = (Except.error (Error.WrongToken token), c, []) := by
  simp [EthCloud.handle_net_message, h]

/-- Witness for C2: token `7` against local token `42` on a `GetPeers`
message. -/
theorem wrong_token_no_mutation_witness :
    (7 : Token) ≠ cEx.token
  ∧ cEx.handle_net_message (fun _ => true) true 50 9 7 Message.GetPeers
      = (Except.error (Error.WrongToken 7), cEx, []) :=
  ⟨by decide,
   wrong_token_no_mutation cEx (fun _ => true) true 50 9 7 Message.GetPeers (by decide)⟩

/-- C9: the device-to-socket path never mutates the MAC table or the peer
list, for any frame, hit or miss; learning happens only in
`handle_net_message`. -/
theorem no_learning_on_egress (c : EthCloud) (sendOk : SocketAddr → Bool) (f : Frame) :
    ((c.handle_ethernet_frame sendOk f).2.1).peers = c.peers
  ∧ ((c.handle_ethernet_frame sendOk f).2.1).mactable = c.mactable := by
  unfold EthCloud.handle_ethernet_frame
  cases c.mactable.lookup f.dst f.vlan <;> simp

/-- C3: after `peers.add(a)` at time `t`, `peers.contains(a)` stays true
across every later peer-list operation sequence that contains no
`remove(a)`, whose `timeout()` sweeps all run strictly before
`t + peer_timeout`, and whose re-adds of `a` happen no earlier than `t`
(the clock is monotone); in particular a `timeout()` strictly before
`t + peer_timeout` never evicts `a`. -/
theorem peer_persistence_until_deadline (pl : PeerList) (a : SocketAddr) (t : Int)
    (ops : List PeerOp) (hops : ∀ op ∈ ops, peerOpSafe a t pl.timeout_dur op) :
    ((pl.add a t).applyOps ops).contains a = true := by
  have hstart : PeerInv a (t + pl.timeout_dur) (pl.add a t) := by
    constructor
    · exact ⟨(a, t + pl.timeout_dur), by simp [PeerList.add], rfl⟩
    · intro e he hea
      simp only [PeerList.add, List.mem_cons, List.mem_filter] at he
      rcases he with rfl | ⟨-, hne⟩
      · exact le_refl _
      · simp [hea] at hne
  have h := peerInv_applyOps a t pl.timeout_dur ops (pl.add a t) rfl hstart hops
  obtain ⟨⟨e, he, hea⟩, -⟩ := h
  simp only [PeerList.contains, List.any_eq_true]
  exact ⟨e, he, by simp [hea]⟩

/-- Witness for C3: add peer `5` at `t = 0` with `peer_timeout = 600`; a
foreign add, a sweep at `599` and a foreign removal leave it contained. -/
theorem peer_persistence_until_deadline_witness :
    (((PeerList.new 600).add 5 0).applyOps
        [PeerOp.add 9 10, PeerOp.timeout 599, PeerOp.remove 9]).contains 5 = true :=
  peer_persistence_until_deadline (PeerList.new 600) 5 0
    [PeerOp.add 9 10, PeerOp.timeout 599, PeerOp.remove 9]
    (by
      intro op hop
      simp only [List.mem_cons, List.not_mem_nil, or_false] at hop
      rcases hop with rfl | rfl | rfl <;> simp [peerOpSafe, PeerList.new])

/-- C4: after `mactable.learn(m, v, a)` at time `t`, `lookup(m, v)` returns
`a` across every later MAC-table operation sequence with no re-learn of the
key `(m, v)` and with all `timeout()` sweeps strictly before
`t + mac_timeout`; and relearning `(m, v)` with a different address always
replaces the mapping with the most recent one. -/
theorem mac_persistence_and_relearn :
    (∀ (tbl : MacTable) (m : Mac) (v : Nat) (a : SocketAddr) (t : Int)
        (ops : List MacOp), (∀ op ∈ ops, macOpSafe m v t tbl.timeout_dur op) →
      ((tbl.learn m v a t).applyOps ops).lookup m v = some a)
  ∧ (∀ (tbl : MacTable) (m : Mac) (v : Nat) (a a' : SocketAddr) (t t' : Int),
      ((tbl.learn m v a t).learn m v a' t').lookup m v = some a') := by
  constructor
  · intro tbl m v a t ops hops
    have hstart : MacInv (MacTableKey.mk m v) a (t + tbl.timeout_dur)
        (tbl.learn m v a t) := by
      constructor
      · exact ⟨(MacTableKey.mk m v, MacTableValue.mk a (t + tbl.timeout_dur)),
          by simp [MacTable.learn], rfl⟩
      · intro e he hek
        simp only [MacTable.learn, List.mem_cons, List.mem_filter] at he
        rcases he with rfl | ⟨-, hne⟩
        · exact ⟨rfl, le_refl _⟩
        · simp [hek] at hne
    have h := macInv_applyOps m v a t tbl.timeout_dur ops (tbl.learn m v a t)
      rfl hstart hops
    exact lookup_of_macInv _ m v a _ h
  · intro tbl m v a a' t t'
    simp [MacTable.learn, MacTable.lookup, List.find?]

/-- Witness for C4: learn `(10, 0) → 1` at `t = 0` with `mac_timeout = 300`;
a foreign learn and a sweep at `299` keep the lookup at `1`, and relearning
`(10, 0)` as `2` replaces it. -/
theorem mac_persistence_and_relearn_witness :
    (((MacTable.new 300).learn 10 0 1 0).applyOps
        [MacOp.learn 11 0 2 5, MacOp.timeout 299]).lookup 10 0 = some 1
  ∧ (((MacTable.new 300).learn 10 0 1 0).learn 10 0 2 100).lookup 10 0 = some 2 :=
  ⟨mac_persistence_and_relearn.1 (MacTable.new 300) 10 0 1 0
      [MacOp.learn 11 0 2 5, MacOp.timeout 299]
      (by
        intro op hop
        simp only [List.mem_cons, List.not_mem_nil, or_false] at hop
        rcases hop with rfl | rfl <;> simp [macOpSafe, MacTable.new]),
   mac_persistence_and_relearn.2 (MacTable.new 300) 10 0 1 2 0 100⟩

/-- C5 counterexample: flooding `fMiss` from `cEx` (snapshot `[1, 2]`) with
the send to peer `1` failing attempts no send to the remaining peer `2`:
the `try!` in the broadcast loop aborts at the first `SocketError` instead
of continuing with the remaining peers. -/
theorem flood_abort_cex :
    cEx.handle_ethernet_frame sendOkNot1 fMiss
      = (Except.error (Error.SocketError "IOError when sending"), cEx,
         [(1, Message.Frame fMiss)])
  ∧ (2 : SocketAddr) ∈ cEx.peers.as_vec
  ∧ (2, Message.Frame fMiss) ∉ (cEx.handle_ethernet_frame sendOkNot1 fMiss).2.2 :=
  ⟨rfl, by decide, by decide⟩

/-- C5 (amended): when a send fails during a flood — or during the gossip
broadcast of `housekeep` — the loop aborts at the failing peer: peers
earlier in the snapshot were attempted, the failing one was attempted, the
remaining ones were not, and the `SocketError` is returned to the caller. -/
theorem flood_stops_at_first_failed_send :
    (∀ (c : EthCloud) (sendOk : SocketAddr → Bool) (f : Frame)
        (xs : List SocketAddr) (a : SocketAddr) (ys : List SocketAddr),
      c.mactable.lookup f.dst f.vlan = none →
      c.peers.as_vec = xs ++ a :: ys →
      (∀ x ∈ xs, sendOk x = true) → sendOk a = false →
      c.handle_ethernet_frame sendOk f
        = (Except.error (Error.SocketError "IOError when sending"), c,
           xs.map (fun x => (x, Message.Frame f)) ++ [(a, Message.Frame f)]))
  ∧ (∀ (c : EthCloud) (sendOk : SocketAddr → Bool) (now : Int)
        (xs : List SocketAddr) (a : SocketAddr) (ys : List SocketAddr),
      c.next_peerlist ≤ now →
      (c.peers.timeout now).as_vec = xs ++ a :: ys →
      (∀ x ∈ xs, sendOk x = true) → sendOk a = false →
      (c.housekeep sendOk now).2.2
        = xs.map (fun x => (x, Message.Peers (xs ++ a :: ys)))
            ++ [(a, Message.Peers (xs ++ a :: ys))]
      ∧ (c.housekeep sendOk now).1
        = Except.error (Error.SocketError "IOError when sending")) := by
  constructor
  · intro c sendOk f xs a ys hl hsnap hxs ha
    simp [EthCloud.handle_ethernet_frame, hl, hsnap,
      sendAll_stops_at_failure sendOk (Message.Frame f) xs a ys hxs ha]
  · intro c sendOk now xs a ys hnp hsnap hxs ha
    have hs := sendAll_stops_at_failure sendOk (Message.Peers (xs ++ a :: ys))
      xs a ys hxs ha
    constructor <;> simp [EthCloud.housekeep, hnp, hsnap, hs]

/-- Witness for the amended C5: in `cEx` the send to the first snapshot
peer `1` succeeds and the send to the second peer `2` fails, so exactly
`1` and `2` are attempted and the error is returned; likewise for the
gossip broadcast of `housekeep`. -/
theorem flood_stops_at_first_failed_send_witness :
    cEx.handle_ethernet_frame sendOkNot2 fMiss
      = (Except.error (Error.SocketError "IOError when sending"), cEx,
         [(1, Message.Frame fMiss), (2, Message.Frame fMiss)])
  ∧ (c7.housekeep sendOkNot2 0).2.2
      = [(1, Message.Peers [1, 2]), (2, Message.Peers [1, 2])]
  ∧ (c7.housekeep sendOkNot2 0).1
      = Except.error (Error.SocketError "IOError when sending") := by
  refine ⟨?_, ?_, ?_⟩
  · have h := flood_stops_at_first_failed_send.1 cEx sendOkNot2 fMiss
      [1] 2 [] (by decide) (by decide) (by decide) (by decide)
    rw [h]
    rfl
  · have h := (flood_stops_at_first_failed_send.2 c7 sendOkNot2 0
      [1] 2 [] (by decide) (by decide) (by decide) (by decide)).1
    rw [h]
    rfl
  · exact (flood_stops_at_first_failed_send.2 c7 sendOkNot2 0
      [1] 2 [] (by decide) (by decide) (by decide) (by decide)).2

/-- C6: the housekeeping guard of `run` as written,
`last_housekeep < now + 1s`, holds on every iteration of a monotone clock,
so housekeeping is never skipped; in particular it fires zero seconds after
the last run, where the guard the spec states as the intent says skip. -/
theorem housekeep_guard_always_fires :
    (∀ last now : Int, last ≤ now → housekeepCheck last now = true)
  ∧ housekeepCheck 5 5 = true ∧ housekeepCheckSpec 5 5 = false := by
  refine ⟨?_, by decide, by decide⟩
  intro last now h
  simp only [housekeepCheck, decide_eq_true_eq]
  omega

/-- Witness for C6: the guard fires three seconds after the last run. -/
theorem housekeep_guard_always_fires_witness :
    (0 : Int) ≤ 3 ∧ housekeepCheck 0 3 = true :=
  ⟨by decide, housekeep_guard_always_fires.1 0 3 (by decide)⟩

/-- C7 counterexample: in `c7` (gossip due, interval `10`) with the send to
peer `2` failing, the first housekeeping run delivers the `Peers` snapshot
to peer `1` but does not advance `next_peerlist`, and the next housekeeping
run one second later — well before the interval has elapsed — delivers the
snapshot to peer `1` again. -/
theorem gossip_retry_within_interval_cex :
    ((c7.housekeep sendOkNot2 0).2.1).next_peerlist = 0
  ∧ (1, Message.Peers [1, 2]) ∈ (c7.housekeep sendOkNot2 0).2.2
  ∧ (1, Message.Peers [1, 2])
      ∈ (((c7.housekeep sendOkNot2 0).2.1).housekeep sendOkNot2 1).2.2
  ∧ (1 : Int) < 0 + c7.update_freq
  ∧ sendOkNot2 1 = true :=
  ⟨rfl, by decide, by decide, by decide, rfl⟩

/-- C7 (amended): `update_freq` is set to `peer_timeout / 2`; when every
send succeeds, a gossip round advances `next_peerlist` to
`now + update_freq`, and a housekeeping run strictly before that deadline
sends nothing and leaves the deadline unchanged; but when a send fails the
deadline is not advanced, so gossip is re-attempted at the next
housekeeping run even within the interval. -/
theorem gossip_once_per_interval_on_success :
    (∀ (token : Token) (mac_timeout peer_timeout now : Int),
      (EthCloud.init token mac_timeout peer_timeout now).update_freq
        = peer_timeout / 2)
  ∧ (∀ (c : EthCloud) (sendOk : SocketAddr → Bool) (now : Int),
      (∀ a, sendOk a = true) → c.next_peerlist ≤ now →
      ((c.housekeep sendOk now).2.1).next_peerlist = now + c.update_freq)
  ∧ (∀ (c : EthCloud) (sendOk : SocketAddr → Bool) (now : Int),
      ¬ c.next_peerlist ≤ now →
      (c.housekeep sendOk now).2.2 = []
      ∧ ((c.housekeep sendOk now).2.1).next_peerlist = c.next_peerlist)
  ∧ (∀ (c : EthCloud) (sendOk : SocketAddr → Bool) (now : Int)
        (xs : List SocketAddr) (a : SocketAddr) (ys : List SocketAddr),
      c.next_peerlist ≤ now →
      (c.peers.timeout now).as_vec = xs ++ a :: ys →
      (∀ x ∈ xs, sendOk x = true) → sendOk a = false →
      ((c.housekeep sendOk now).2.1).next_peerlist = c.next_peerlist) := by
  refine ⟨fun _ _ _ _ => rfl, ?_, ?_, ?_⟩
  · intro c sendOk now hok hnp
    simp [EthCloud.housekeep, hnp,
      sendAll_all_ok sendOk (Message.Peers ((c.peers.timeout now).as_vec))
        ((c.peers.timeout now).as_vec) (fun a _ => hok a)]
  · intro c sendOk now hnp
    constructor <;> simp [EthCloud.housekeep, hnp]
  · intro c sendOk now xs a ys hnp hsnap hxs ha
    have hs := sendAll_stops_at_failure sendOk (Message.Peers (xs ++ a :: ys))
      xs a ys hxs ha
    simp [EthCloud.housekeep, hnp, hsnap, hs]

/-- Witness for the amended C7 at concrete inputs: the constructed
frequency, a successful gossip advancing the deadline, a pre-deadline run
sending nothing, and a failed gossip leaving the deadline unchanged. -/
theorem gossip_once_per_interval_on_success_witness :
    (EthCloud.init 42 300 600 0).update_freq = 300
  ∧ ((cEx.housekeep (fun _ => true) 0).2.1).next_peerlist = 0 + cEx.update_freq
  ∧ ((cEx.housekeep (fun _ => true) (-1)).2.2 = []
      ∧ ((cEx.housekeep (fun _ => true) (-1)).2.1).next_peerlist
          = cEx.next_peerlist)
  ∧ ((c7.housekeep sendOkNot2 0).2.1).next_peerlist = c7.next_peerlist := by
  refine ⟨?_, ?_, ?_, ?_⟩
  · have h := gossip_once_per_interval_on_success.1 42 300 600 0
    rw [h]
    decide
  · exact gossip_once_per_interval_on_success.2.1 cEx (fun _ => true) 0
      (fun _ => rfl) (by decide)
  · exact gossip_once_per_interval_on_success.2.2.1 cEx (fun _ => true) (-1)
      (by decide)
  · exact gossip_once_per_interval_on_success.2.2.2 c7 sendOkNot2 0
      [1] 2 [] (by decide) (by decide) (by decide) (by decide)

/-- C8: for an inbound `Frame` with the correct token the device write comes
first: on write failure the handler returns `TapdevError` and mutates
neither the peer list nor the MAC table; on write success it adds the
sender to the peer list and learns `(src, vlan) → sender`. -/
theorem frame_receive_write_first :
    (∀ (c : EthCloud) (sendOk : SocketAddr → Bool) (now : Int)
        (peer : SocketAddr) (f : Frame),
      c.handle_net_message sendOk false now peer c.token (Message.Frame f)
        = (Except.error (Error.TapdevError "Failed to write to tap device"), c, []))
  ∧ (∀ (c : EthCloud) (sendOk : SocketAddr → Bool) (now : Int)
        (peer : SocketAddr) (f : Frame),
      c.handle_net_message sendOk true now peer c.token (Message.Frame f)
        = (Except.ok (),
           { c with peers := c.peers.add peer now,
                    mactable := c.mactable.learn f.src f.vlan peer now }, [])) := by
  constructor <;> intro c sendOk now peer f <;> simp [EthCloud.handle_net_message]

/-- C10: for a `Peers(list)` message with the correct token and all sends
succeeding, the sender is added to the peer list first and `GetPeers` is
sent exactly to the listed addresses not contained in the updated peer
list, in list order; the sender itself never receives a `GetPeers`, even
when it appears in its own gossiped list. -/
theorem peers_gossip_connect_only_unknown (c : EthCloud) (sendOk : SocketAddr → Bool)
    (tapOk : Bool) (now : Int) (peer : SocketAddr) (ps : List SocketAddr)
    (hok : ∀ a, sendOk a = true) :
    c.handle_net_message sendOk tapOk now peer c.token (Message.Peers ps)
      = (Except.ok (), { c with peers := c.peers.add peer now },
         (ps.filter (fun p => ! (c.peers.add peer now).contains p)).map
           (fun p => (p, Message.GetPeers)))
  ∧ (peer, Message.GetPeers)
      ∉ (c.handle_net_message sendOk tapOk now peer c.token (Message.Peers ps)).2.2 := by
  have hmain :
      c.handle_net_message sendOk tapOk now peer c.token (Message.Peers ps)
        = (Except.ok (), { c with peers := c.peers.add peer now },
           (ps.filter (fun p => ! (c.peers.add peer now).contains p)).map
             (fun p => (p, Message.GetPeers))) := by
    simp [EthCloud.handle_net_message,
      connectLoop_all_ok sendOk (c.peers.add peer now) ps (fun a _ => hok a)]
  refine ⟨hmain, ?_⟩
  intro hm
  rw [hmain] at hm
  simp only [List.mem_map, List.mem_filter, Prod.mk.injEq] at hm
  obtain ⟨p, ⟨-, hnc⟩, hpeq, -⟩ := hm
  subst hpeq
  rw [contains_add_self] at hnc
  simp at hnc

/-- Witness for C10: sender `9` gossips `[9, 1, 4]` to `cEx`; `9` was just
added and `1` is known, so `GetPeers` goes exactly to `4`, and never to the
sender `9` although it listed itself. -/
theorem peers_gossip_connect_only_unknown_witness :
    cEx.handle_net_message (fun _ => true) true 50 9 cEx.token
        (Message.Peers [9, 1, 4])
      = (Except.ok (), { cEx with peers := cEx.peers.add 9 50 },
         [(4, Message.GetPeers)])
  ∧ (9, Message.GetPeers)
      ∉ (cEx.handle_net_message (fun _ => true) true 50 9 cEx.token
          (Message.Peers [9, 1, 4])).2.2 := by
  have h := peers_gossip_connect_only_unknown cEx (fun _ => true) true 50 9
    [9, 1, 4] (fun _ => rfl)
  refine ⟨?_, h.2⟩
  rw [h.1]
  rfl

end Ethcloud
